import Mathlib

/-!
# KeyValueServer: the request parser and the manager loop

A shallow embedding of `server_impl.go` (package `kvserver`):

* `parseRequest` with the two `strings` functions it calls, and the pass of
  `reader` that calls it;
* one iteration of the `manage` loop (`manage`), as a function from the server
  state and the selected event to an outcome, together with the channels and
  sockets the manager touches, and the loop over a sequence of events (`run`);
* one pass of `writer`, the receiver of the channels the manager sends on;
* `CountActive` and `CountDropped`, the receivers of the manager's answers.

The manager is the only goroutine that takes steps in `manage` and `run`: a
send on a buffered channel with room puts the value into the buffer, a send on
an unbuffered channel hands the value to a goroutine that waits in a receive,
and a send that finds neither room nor receiver leaves the manager waiting
(`Outcome.blocked`).

Strings are lists of characters (`Str`); one character stands for one byte of
the Go string, so `[]byte(s)` and the `%s` verb of `fmt.Sprintf` are the
identity on the content.
-/

namespace KVServer

/-- A Go `string` (and a `[]byte`): a sequence of bytes, one character each. -/
abbrev Str := List Char

/-! ## `strings.TrimSuffix` and `strings.Split` -/

/-- The Go function `strings.TrimSuffix(s, suffix)`: `s` without the trailing
`suffix` when `s` ends with it, `s` itself otherwise. -/
def TrimSuffix (s suffix : Str) : Str :=
  if suffix.isSuffixOf s then s.take (s.length - suffix.length) else s

/-- The Go function `strings.Split(s, sep)` for a one-byte separator: the
substrings between the occurrences of `sep`; `k` occurrences give `k + 1`
substrings, so the result is never empty. -/
def Split (s : Str) (sep : Char) : List Str :=
  match s with
  | [] => [[]]
  | c :: cs =>
    if c = sep then [] :: Split cs sep
    else
      match Split cs sep with
      | [] => [[c]]
      | w :: ws => (c :: w) :: ws

/-! ## Clients and queries -/

/-- A `net.Conn` interface value that is not nil: the address of the connection
object and whether its dynamic type is `*net.TCPConn`. -/
structure Conn where
  addr : Nat
  isTCP : Bool
deriving DecidableEq

/-- The struct `client`. A channel field holds the address of a channel, `none`
is the nil channel; `conn = none` is the nil interface. The zero value
`client{}` has all four fields `none`. -/
structure client where
  conn : Option Conn
  closeWriter : Option Nat
  closeReader : Option Nat
  respChan : Option Nat
deriving DecidableEq

/-- The struct `query`. -/
structure query where
  client : KVServer.client
  qType : Str
  key : Str
  suffix : List Str
deriving DecidableEq

/-- The function `parseRequest`. `none` is the run-time panic of an index or
slice expression out of range (`split[0]`, `split[1]`, `split[2:]`). -/
def parseRequest (c : client) (req : Str) : Option query :=
  match Split (TrimSuffix req ['\n']) ':' with
  | t :: k :: rest => some { client := c, qType := t, key := k, suffix := rest }
  | _ => none

/-- What `rdr.ReadString('\n')` hands to the reader: a line up to and including
the newline (with a nil error), or an error, which is `io.EOF` or another one. -/
inductive ReadResult where
  | line (req : Str)
  | eof
  | failed

/-- What one pass through the default case of the loop of `reader` comes to. -/
inductive ReaderStep where
  /-- the query was sent on `queryChan`; the loop selects again -/
  | forwarded (q : query)
  /-- the reader has returned, after sending `sent` on `queryChan` if there is one -/
  | stopped (sent : Option query)
  /-- a run-time panic in the reader goroutine -/
  | panicked

/-- The default case of the loop of `reader` for the client `c`, on what
`ReadString` returns. -/
def reader (c : client) : ReadResult → ReaderStep
  | .failed => .stopped none
  | .eof => .stopped (some { client := c, qType := "RemConn".toList, key := [], suffix := [] })
  | .line req =>
    match parseRequest c req with
    | some q => .forwarded q
    | none => .panicked

/-! ## The store adapter -/

/-- Modelled from the spec: the store adapter behind `kvs.db` (package `kvstore`,
which is not among the sources), an opaque key-value backend with the four
operations `insert`, `lookup`, `delete` and `update`, over its state `σ`. The
manager calls them as `Put`, `Get`, `Delete` and `Update`; `Get` returns the
sequence of values stored under the key, together with the store's state after
the call. -/
structure KVStore (σ : Type) where
  Put : σ → Str → Str → σ
  Get : σ → Str → List Str × σ
  Delete : σ → Str → σ
  Update : σ → Str → Str → Str → σ

/-- A call made on the store, recorded in the order the manager makes them. -/
inductive StoreCall where
  | Put (key value : Str)
  | Get (key : Str)
  | Delete (key : Str)
  | Update (key oldValue newValue : Str)
deriving DecidableEq

/-- A goroutine started by the manager with a `go` statement. -/
inductive Goroutine where
  | reader (c : client)
  | writer (c : client)
deriving DecidableEq

/-! ## Server state -/

/-- Max size of a client response buffer (`const bufferSize = 500`). -/
def bufferSize : Nat := 500

/-- Capacity of a `respChan`: `make(chan string, 500)` in `newClient`. -/
def respChanCap : Nat := 500

/-- Capacity of `closeWriter` and `closeReader`: `make(chan int, 1)` in
`newClient`. -/
def closeChanCap : Nat := 1

/-- The function `newClient`; `w`, `r` and `p` are the addresses of the three
channels it makes. -/
def newClient (conn : Conn) (w r p : Nat) : client :=
  { conn := some conn, closeWriter := some w, closeReader := some r, respChan := some p }

/-- The struct `keyValueServer` together with the objects the manager reaches
from it.

* `db`, `numActive`, `numDropped`, `connMap`: the fields of the struct; the map
  is a list of entries (key: address of the `*net.TCPConn`, in no particular
  order), and the Go `int` counters are natural numbers: they start at 0 and
  grow by one per handled query, far below the 64-bit range.
* `getActive`, `getDropped`: the values handed over on these unbuffered
  channels so far, oldest first.
* `recvActive`, `recvDropped`: the number of goroutines that wait in a receive
  on `getActive` and on `getDropped`: the callers of `CountActive` and of
  `CountDropped` whose answer has not been sent yet.
* `ints`, `strs`: the buffered content of every `chan int` and `chan string`,
  by address, oldest first.
* `closed`: how often `Close()` was called on each connection, by address.
* `calls`, `spawned`: the store calls and `go` statements executed so far.

`queryChan` and `closeChan` are the source of the events of `manage`; `ln` is
not used by the manager. -/
structure keyValueServer (σ : Type) where
  db : σ
  numActive : Nat
  getActive : List Nat
  numDropped : Nat
  getDropped : List Nat
  recvActive : Nat
  recvDropped : Nat
  connMap : List (Nat × client)
  ints : Nat → List Nat
  strs : Nat → List Str
  closed : Nat → Nat
  calls : List StoreCall
  spawned : List Goroutine

/-- The function `New`: the server around the store `store`, with an empty
`connMap`, both counters zero, nothing sent, closed or started yet, and nobody
waiting for an answer. -/
def New {σ : Type} (store : σ) : keyValueServer σ :=
  { db := store, numActive := 0, getActive := [], numDropped := 0, getDropped := [],
    recvActive := 0, recvDropped := 0, connMap := [], ints := fun _ => [], strs := fun _ => [], closed := fun _ => 0,
    calls := [], spawned := [] }

/-! ## Channel and map operations -/

/-- The Go builtin `len(ch)` on a channel: the number of buffered elements, 0 for the
nil channel. -/
def chanLen {α : Type} (bufs : Nat → List α) : Option Nat → Nat
  | none => 0
  | some a => (bufs a).length

/-- The send statement `ch <- v` on a channel of capacity `cap` that nobody is
receiving from at this moment: the buffers after the send, or `none` when the
sender has to wait (the buffer is full, or `ch` is nil). -/
def send {α : Type} (cap : Nat) (bufs : Nat → List α) (ch : Option Nat) (v : α) :
    Option (Nat → List α) :=
  match ch with
  | none => none
  | some a =>
    if (bufs a).length < cap then some (Function.update bufs a (bufs a ++ [v])) else none

/-- The send statement `ch <- v` on an unbuffered channel with `waiting`
goroutines in a receive on it and the values `sent` handed over so far: one
of the receivers takes the value, or `none` when the sender has to wait
because nobody receives. -/
def sendUnbuffered (waiting : Nat) (sent : List Nat) (v : Nat) : Option (Nat × List Nat) :=
  if 0 < waiting then some (waiting - 1, sent ++ [v]) else none

/-- The receive operation `<-ch` as a case of a `select`: the oldest buffered
element and the buffers without it, or `none` when the case is not ready (the
buffer is empty, or `ch` is nil). -/
def recv {α : Type} (bufs : Nat → List α) (ch : Option Nat) : Option (α × (Nat → List α)) :=
  match ch with
  | none => none
  | some a =>
    match bufs a with
    | [] => none
    | v :: rest => some (v, Function.update bufs a rest)

/-- The type assertion `conn.(*net.TCPConn)` with its `ok` result: the address
of the TCP connection, or `none` when the assertion fails. -/
def asTCPConn : Option Conn → Option Nat
  | some c => if c.isTCP then some c.addr else none
  | none => none

/-- The Go builtin `delete(m, k)` on `connMap`. -/
def mapDelete (m : List (Nat × client)) (k : Nat) : List (Nat × client) :=
  m.filter (fun e => decide (e.1 ≠ k))

/-- The assignment `m[k] = v` on `connMap`: the entry for `k` is replaced or added. -/
def mapSet (m : List (Nat × client)) (k : Nat) (v : client) : List (Nat × client) :=
  (k, v) :: mapDelete m k

/-- The call `c.Close()` on the connection at address `a`. -/
def closeConn {σ : Type} (s : keyValueServer σ) (a : Nat) : keyValueServer σ :=
  { s with closed := Function.update s.closed a (s.closed a + 1) }

/-! ## The manager -/

/-- What one iteration of the `manage` loop comes to. -/
inductive Outcome (σ : Type) where
  /-- the case ran to its end; the loop selects again -/
  | running (s : keyValueServer σ)
  /-- the `return` of the close case: `manage` has ended -/
  | returned (s : keyValueServer σ)
  /-- the manager waits in a send statement, in state `s`: on a buffered channel
  without room, on an unbuffered channel without receiver, or on a nil channel -/
  | blocked (s : keyValueServer σ)
  /-- a run-time panic (index out of range, nil dereference) -/
  | panicked

/-- What the `select` of `manage` receives: the close signal on `closeChan`, or
a query on `queryChan`. -/
inductive Event where
  | close
  | query (q : KVServer.query)
deriving DecidableEq

/-- The response line `fmt.Sprintf("%s:%s\n", key, v)`. -/
def respLine (key v : Str) : Str := key ++ ':' :: (v ++ ['\n'])

/-- The loop `for _, v := range value { query.client.respChan <- r }` over the
response lines still to send. -/
def sendAll {σ : Type} (s : keyValueServer σ) (ch : Option Nat) : List Str → Outcome σ
  | [] => .running s
  | r :: rs =>
    match send respChanCap s.strs ch r with
    | none => .blocked s
    | some strs => sendAll { s with strs := strs } ch rs

/-- The loop `for k, v := range kvs.connMap` of the close case followed by its
`return`, over the entries still to visit (Go visits them in an unspecified
order; here it is the order of the list). -/
def closeAll {σ : Type} (s : keyValueServer σ) : List (Nat × client) → Outcome σ
  | [] => .returned s
  | (k, v) :: rest =>
    match v.conn with
    | none => .panicked
    | some c =>
      let s1 := closeConn s c.addr
      match send closeChanCap s1.ints v.closeReader 1 with
      | none => .blocked s1
      | some i2 =>
        match send closeChanCap i2 v.closeWriter 1 with
        | none => .blocked { s1 with ints := i2 }
        | some i3 => closeAll { s1 with ints := i3, connMap := mapDelete s1.connMap k } rest

/-- The case of `query.qType` in the `switch` of `manage`. -/
def handleQuery {σ : Type} (store : KVStore σ) (s : keyValueServer σ) (q : query) : Outcome σ :=
  if q.qType = "Active".toList then
    match sendUnbuffered s.recvActive s.getActive s.connMap.length with
    | some (recvActive, getActive) =>
      .running { s with recvActive := recvActive, getActive := getActive }
    | none => .blocked s
  else if q.qType = "Dropped".toList then
    match sendUnbuffered s.recvDropped s.getDropped s.numDropped with
    | some (recvDropped, getDropped) =>
      .running { s with recvDropped := recvDropped, getDropped := getDropped }
    | none => .blocked s
  else if q.qType = "AddConn".toList then
    match asTCPConn q.client.conn with
    | some tcpConn =>
      .running { s with connMap := mapSet s.connMap tcpConn q.client,
                        spawned := s.spawned ++ [.reader q.client, .writer q.client] }
    | none => .running s
  else if q.qType = "Put".toList then
    match q.suffix with
    | [] => .panicked
    | v :: _ =>
      .running { s with db := store.Put s.db q.key v, calls := s.calls ++ [.Put q.key v] }
  else if q.qType = "Get".toList then
    let value := store.Get s.db q.key
    let s1 := { s with db := value.2, calls := s.calls ++ [.Get q.key] }
    if chanLen s1.strs q.client.respChan ≥ bufferSize then .running s1
    else sendAll s1 q.client.respChan (value.1.map (respLine q.key))
  else if q.qType = "Delete".toList then
    .running { s with db := store.Delete s.db q.key, calls := s.calls ++ [.Delete q.key] }
  else if q.qType = "Update".toList then
    match q.suffix with
    | o :: n :: _ =>
      .running { s with db := store.Update s.db q.key o n,
                        calls := s.calls ++ [.Update q.key o n] }
    | _ => .panicked
  else if q.qType = "RemConn".toList then
    let s1 := match asTCPConn q.client.conn with
      | some tcpConn => closeConn { s with connMap := mapDelete s.connMap tcpConn } tcpConn
      | none => s
    match send closeChanCap s1.ints q.client.closeWriter 1 with
    | none => .blocked s1
    | some ints => .running { s1 with ints := ints, numDropped := s1.numDropped + 1 }
  else .running s

/-- One iteration of the `for`/`select` loop of `manage` on the event it
receives. -/
def manage {σ : Type} (store : KVStore σ) (s : keyValueServer σ) : Event → Outcome σ
  | .close => closeAll s s.connMap
  | .query q => handleQuery store s q

/-- The loop of `manage` over the events it receives, in order: it goes on while
the iterations end normally, and stays where it is once `manage` has returned,
waits in a send, or has panicked (the receivers are other goroutines and take
no step in this loop, so a manager that waits stays waiting). -/
def run {σ : Type} (store : KVStore σ) : Outcome σ → List Event → Outcome σ
  | .running s, e :: es => run store (manage store s e) es
  | o, _ => o

/-! ## The writer -/

/-- What one pass through the `select` of `writer` comes to. -/
inductive WriterStep (σ : Type) where
  /-- the stop signal was received: the writer has returned -/
  | returned (s : keyValueServer σ)
  /-- a response was received and written to the connection; the loop selects again -/
  | wrote (s : keyValueServer σ) (resp : Str)
  /-- the chosen case is not ready -/
  | waiting

/-- One pass through the `select` of `writer` for the client `c`, on the case
`<-c.closeWriter` when `stop` is true and on the case `<-c.respChan` otherwise. -/
def writer {σ : Type} (s : keyValueServer σ) (c : client) (stop : Bool) : WriterStep σ :=
  if stop then
    match recv s.ints c.closeWriter with
    | some (_, ints) => .returned { s with ints := ints }
    | none => .waiting
  else
    match recv s.strs c.respChan with
    | some (resp, strs) => .wrote { s with strs := strs } resp
    | none => .waiting

/-! ## The queries the other goroutines send -/

/-- The method `CountActive`, called while the manager is at its `select`: the
caller sends its query and waits in the receive on `getActive`; the manager
handles the query; the caller returns the value handed over, here with the
state the manager is left in. `none`: the manager does not get to send the
answer and the call does not return. -/
def CountActive {σ : Type} (store : KVStore σ) (s : keyValueServer σ) :
    Option (Nat × keyValueServer σ) :=
  match manage store { s with recvActive := s.recvActive + 1 }
      (.query ⟨⟨none, none, none, none⟩, "Active".toList, [], []⟩) with
  | .running s1 => s1.getActive.getLast?.map (fun cnt => (cnt, s1))
  | _ => none

/-- The method `CountDropped`, in the same way, on `getDropped`. -/
def CountDropped {σ : Type} (store : KVStore σ) (s : keyValueServer σ) :
    Option (Nat × keyValueServer σ) :=
  match manage store { s with recvDropped := s.recvDropped + 1 }
      (.query ⟨⟨none, none, none, none⟩, "Dropped".toList, [], []⟩) with
  | .running s1 => s1.getDropped.getLast?.map (fun cnt => (cnt, s1))
  | _ => none

/-- The query `accept` sends for a new client. -/
def addQuery (c : client) : Event := .query ⟨c, "AddConn".toList, [], []⟩

/-- The query a reader sends when it reaches the end of its stream. -/
def remQuery (c : client) : Event := .query ⟨c, "RemConn".toList, [], []⟩

/-- The query `CountActive` sends. -/
def activeQuery : Event := .query ⟨⟨none, none, none, none⟩, "Active".toList, [], []⟩

/-- The query `CountDropped` sends. -/
def droppedQuery : Event := .query ⟨⟨none, none, none, none⟩, "Dropped".toList, [], []⟩

/-- The query a reader sends for a `Get` line. -/
def getQuery (c : client) (k : Str) : Event := .query ⟨c, "Get".toList, k, []⟩

/-- The query a reader sends for a `Put` line with one value. -/
def putQuery (c : client) (k v : Str) : Event := .query ⟨c, "Put".toList, k, [v]⟩

/-! ## Vocabulary of the properties -/

/-- The wire format of a request, `Type:Key:Arg1:Arg2:...` followed by a
newline, for the list of its fields. -/
def wireLine : List Str → Str
  | [] => ['\n']
  | [a] => a ++ ['\n']
  | a :: b :: rest => a ++ ':' :: wireLine (b :: rest)

/-- The fields of a request joined by `:`, without the final newline. -/
def joinFields : List Str → Str
  | [] => []
  | [a] => a
  | a :: b :: rest => a ++ ':' :: joinFields (b :: rest)

/-- The query types the `switch` of `manage` has a case for. -/
def knownTypes : List Str :=
  ["Active".toList, "Dropped".toList, "AddConn".toList, "Put".toList, "Get".toList,
   "Delete".toList, "Update".toList, "RemConn".toList]

/-- The request types of the wire protocol. -/
def requestTypes : List Str := ["Put".toList, "Get".toList, "Delete".toList, "Update".toList]

/-- The keys of `connMap`. -/
def keys (m : List (Nat × client)) : List Nat := m.map Prod.fst

/-- The stop channels (`closeReader`, `closeWriter`) of the entries of `connMap`. -/
def stopChans : List (Nat × client) → List (Option Nat)
  | [] => []
  | e :: m => e.2.closeReader :: e.2.closeWriter :: stopChans m

/-- The registry holds connection records as `accept` and `newClient` build
them and `manage` registers them: one entry per key, each entry under the
address of its own TCP connection, each record with stop channels of its own,
and no stop signal waiting in them. -/
def WellFormed {σ : Type} (s : keyValueServer σ) : Prop :=
  (keys s.connMap).Nodup ∧
  (∀ e ∈ s.connMap, e.2.conn = some ⟨e.1, true⟩) ∧
  (stopChans s.connMap).Nodup ∧
  (∀ o ∈ stopChans s.connMap, o ≠ none ∧ chanLen s.ints o = 0)

/-- An event of normal operation in state `s`: the `AddConn` query of `accept`
for a new TCP connection, with a record fresh from `newClient`; the `RemConn`
query of a reader for its own, registered record; a `Put`, `Get`, `Delete` or
`Update` request. -/
def NormalEvent {σ : Type} (s : keyValueServer σ) : Event → Prop
  | .close => False
  | .query q =>
    if q.qType = "AddConn".toList then
      ∃ a w r p, q.client = newClient ⟨a, true⟩ w r p ∧ a ∉ keys s.connMap ∧ w ≠ r ∧
        some w ∉ stopChans s.connMap ∧ some r ∉ stopChans s.connMap ∧
        s.ints w = [] ∧ s.ints r = []
    else if q.qType = "RemConn".toList then ∃ a, (a, q.client) ∈ s.connMap
    else q.qType ∈ requestTypes

/-- The events are `AddConn` queries for distinct TCP connections, `RemConn`
queries, at most one per connection and after its `AddConn`, and `Put`, `Get`,
`Delete` and `Update` requests, in any order. `live` are the connections added
and not removed so far, `seen` all the connections added so far. -/
def disciplined (live seen : List Nat) : List Event → Bool
  | [] => true
  | .close :: _ => false
  | .query q :: es =>
    if q.qType = "AddConn".toList then
      match asTCPConn q.client.conn with
      | some a => if a ∈ seen then false else disciplined (a :: live) (a :: seen) es
      | none => false
    else if q.qType = "RemConn".toList then
      match asTCPConn q.client.conn with
      | some a =>
        if a ∈ live then disciplined (live.filter (fun b => decide (b ≠ a))) seen es else false
      | none => false
    else if q.qType ∈ requestTypes then disciplined live seen es
    else false

/-- The number of `AddConn` queries among the events. -/
def countAdd : List Event → Nat
  | [] => 0
  | .query q :: es => (if q.qType = "AddConn".toList then 1 else 0) + countAdd es
  | .close :: es => countAdd es

/-- The number of `RemConn` queries among the events. -/
def countRem : List Event → Nat
  | [] => 0
  | .query q :: es => (if q.qType = "RemConn".toList then 1 else 0) + countRem es
  | .close :: es => countRem es

/-! ## An example store and example states -/

/-- Modelled from the spec: a store adapter that holds several values per key
(a multimap, as a list of key/value pairs in insertion order). It serves to
evaluate the manager on concrete requests; the properties proved for every
store do not depend on it. -/
def listStore : KVStore (List (Str × Str)) where
  Put d k v := d ++ [(k, v)]
  Get d k := ((d.filter (fun e => decide (e.1 = k))).map Prod.snd, d)
  Delete d k := d.filter (fun e => decide (e.1 ≠ k))
  Update d k o n := d.map (fun e => if e = (k, o) then (k, n) else e)

/-- A connection record as `accept` builds it: TCP connection 0 with its
channels `closeWriter` 0, `closeReader` 1 and `respChan` 0. -/
def conn0 : client := newClient ⟨0, true⟩ 0 1 0

/-- A second connection record: TCP connection 1 with `closeWriter` 2,
`closeReader` 3 and `respChan` 1. -/
def conn1 : client := newClient ⟨1, true⟩ 2 3 1

/-- A server with `conn0` registered and nothing waiting in its channels; the
store holds the values `1` and `2` under the key `a`. -/
def readyState : keyValueServer (List (Str × Str)) :=
  { New [("a".toList, "1".toList), ("a".toList, "2".toList)] with
    connMap := [(0, conn0)]
    spawned := [.reader conn0, .writer conn0] }

/-- The server `readyState` with a writer that is not receiving: 499 response
lines wait in the `respChan` of `conn0`. -/
def slowState : keyValueServer (List (Str × Str)) :=
  { readyState with
    strs := fun a => if a = 0 then List.replicate 499 "k:v\n".toList else [] }

/-- The server `readyState` with 500 response lines waiting in the `respChan` of
`conn0`. -/
def fullState : keyValueServer (List (Str × Str)) :=
  { readyState with
    strs := fun a => if a = 0 then List.replicate 500 "k:v\n".toList else [] }

/-- The server after `AddConn` and `RemConn` for `conn0`, once the writer of
`conn0` has received its stop signal and returned. -/
def afterDrop : keyValueServer (List (Str × Str)) :=
  match run listStore (.running (New [])) [addQuery conn0, remQuery conn0] with
  | .running s =>
    match writer s conn0 true with
    | .returned s1 => s1
    | _ => s
  | _ => New []

/-- The server after `AddConn` for `conn0` and for `conn1`. -/
def twoConns : keyValueServer (List (Str × Str)) :=
  { New [] with
    connMap := [(1, conn1), (0, conn0)]
    spawned := [.reader conn0, .writer conn0, .reader conn1, .writer conn1] }

/-- One client connects and does not read its socket; it sends `Put:a:v` 251
times and `Get:a` twice. -/
def floodTrace : List Event :=
  addQuery conn0 ::
    (List.replicate 251 (putQuery conn0 "a".toList "v".toList) ++
      [getQuery conn0 "a".toList, getQuery conn0 "a".toList])

/-- The state the manager is left waiting in after `floodTrace`, from the state
built by `New` around the empty `listStore`. -/
def floodEnd : keyValueServer (List (Str × Str)) :=
  match run listStore (.running (New [])) floodTrace with
  | .blocked s => s
  | _ => New []

/-! ## Facts about the string functions -/

theorem Split_of_not_mem (a : Str) (sep : Char) (h : sep ∉ a) : Split a sep = [a] := by
  induction a with
  | nil => rfl
  | cons c cs ih =>
    have hc : c ≠ sep := fun e => h (by simp [e])
    have hcs : sep ∉ cs := fun m => h (List.mem_cons_of_mem _ m)
    simp [Split, hc, ih hcs]

theorem Split_append_sep (a rest : Str) (sep : Char) (h : sep ∉ a) :
    Split (a ++ sep :: rest) sep = a :: Split rest sep := by
  induction a with
  | nil => simp [Split]
  | cons c cs ih =>
    have hc : c ≠ sep := fun e => h (by simp [e])
    have hcs : sep ∉ cs := fun m => h (List.mem_cons_of_mem _ m)
    simp [Split, hc, ih hcs]

theorem TrimSuffix_append (w suffix : Str) : TrimSuffix (w ++ suffix) suffix = w := by
  simp [TrimSuffix]

theorem wireLine_eq_joinFields (fs : List Str) : wireLine fs = joinFields fs ++ ['\n'] := by
  induction fs with
  | nil => rfl
  | cons a t ih =>
    cases t with
    | nil => rfl
    | cons b rest => simp [wireLine, joinFields, ih]

theorem Split_joinFields (a : Str) (fs : List Str) (h : ∀ f ∈ a :: fs, ':' ∉ f) :
    Split (joinFields (a :: fs)) ':' = a :: fs := by
  induction fs generalizing a with
  | nil => exact Split_of_not_mem a ':' (h a (by simp))
  | cons b rest ih =>
    have ha : ':' ∉ a := h a (by simp)
    have hrest : ∀ f ∈ b :: rest, ':' ∉ f := fun f hf => h f (List.mem_cons_of_mem _ hf)
    simp only [joinFields]
    rw [Split_append_sep a _ ':' ha, ih b hrest]

/-! ## Facts about the response loop and the store requests -/

theorem sendAll_fits {σ : Type} (ch : Nat) (lines : List Str) (s : keyValueServer σ)
    (h : (s.strs ch).length + lines.length ≤ respChanCap) :
    sendAll s (some ch) lines =
      .running { s with strs := Function.update s.strs ch (s.strs ch ++ lines) } := by
  induction lines generalizing s with
  | nil => simp [sendAll]
  | cons r rs ih =>
    simp only [List.length_cons] at h
    have hlt : (s.strs ch).length < respChanCap := by omega
    simp only [sendAll, send, hlt, if_true]
    rw [ih]
    · simp
    · simp; omega

theorem sendAll_overflow {σ : Type} (ch : Nat) (lines : List Str) (s : keyValueServer σ)
    (hle : (s.strs ch).length ≤ respChanCap)
    (h : respChanCap < (s.strs ch).length + lines.length) :
    sendAll s (some ch) lines =
      .blocked { s with
        strs := Function.update s.strs ch
          (s.strs ch ++ lines.take (respChanCap - (s.strs ch).length)) } := by
  induction lines generalizing s with
  | nil => simp at h; omega
  | cons r rs ih =>
    simp only [List.length_cons] at h
    by_cases hlt : (s.strs ch).length < respChanCap
    · simp only [sendAll, send, hlt, if_true]
      rw [ih]
      · have e : respChanCap - (s.strs ch).length
            = (respChanCap - ((s.strs ch).length + 1)) + 1 := by omega
        rw [e]
        simp
      · simp; omega
      · simp; omega
    · have e : respChanCap - (s.strs ch).length = 0 := by omega
      simp [sendAll, send, hlt, e]

theorem sendAll_running {σ : Type} (ch : Option Nat) (lines : List Str)
    (s s1 : keyValueServer σ) (h : sendAll s ch lines = .running s1) :
    s1.connMap = s.connMap ∧ s1.numDropped = s.numDropped ∧ s1.ints = s.ints := by
  induction lines generalizing s with
  | nil =>
    simp only [sendAll, Outcome.running.injEq] at h
    subst h
    exact ⟨rfl, rfl, rfl⟩
  | cons r rs ih =>
    simp only [sendAll] at h
    cases hs : send respChanCap s.strs ch r with
    | none => simp [hs] at h
    | some strs =>
      simp only [hs] at h
      have := ih _ h
      exact this

theorem manage_get_full {σ : Type} (store : KVStore σ) (s : keyValueServer σ)
    (c : client) (ch : Nat) (k : Str) (hc : c.respChan = some ch)
    (hfull : 500 ≤ (s.strs ch).length) :
    manage store s (getQuery c k) =
      .running { s with db := (store.Get s.db k).2, calls := s.calls ++ [.Get k] } := by
  simp [manage, getQuery, handleQuery, hc, chanLen, bufferSize, hfull]

theorem manage_get_fits {σ : Type} (store : KVStore σ) (s : keyValueServer σ)
    (c : client) (ch : Nat) (k : Str) (hc : c.respChan = some ch)
    (hfit : (s.strs ch).length + (store.Get s.db k).1.length ≤ 500) :
    manage store s (getQuery c k) =
      .running { s with
        db := (store.Get s.db k).2, calls := s.calls ++ [.Get k]
        strs := Function.update s.strs ch
          (s.strs ch ++ (store.Get s.db k).1.map (respLine k)) } := by
  by_cases hfull : 500 ≤ (s.strs ch).length
  · have h0 : (store.Get s.db k).1 = [] := List.length_eq_zero.mp (by omega)
    rw [manage_get_full store s c ch k hc hfull]
    simp [h0]
  · have hnot : ¬ (bufferSize ≤ (s.strs ch).length) := by simpa [bufferSize] using hfull
    simp only [manage, getQuery, handleQuery, hc, chanLen, ge_iff_le, hnot, if_false]
    rw [sendAll_fits]
    · rfl
    · simpa [respChanCap] using hfit

theorem manage_put {σ : Type} (store : KVStore σ) (s : keyValueServer σ)
    (c : client) (k v : Str) :
    manage store s (putQuery c k v) =
      .running { s with db := store.Put s.db k v, calls := s.calls ++ [.Put k v] } := by
  simp [manage, putQuery, handleQuery]

theorem manage_request_running {σ : Type} (store : KVStore σ) (s s1 : keyValueServer σ)
    (q : query) (hq : q.qType ∈ requestTypes) (h : manage store s (.query q) = .running s1) :
    s1.connMap = s.connMap ∧ s1.numDropped = s.numDropped ∧ s1.ints = s.ints := by
  simp only [requestTypes, List.mem_cons, List.mem_singleton, List.not_mem_nil, or_false] at hq
  rcases hq with hq | hq | hq | hq
  · simp only [manage, handleQuery, hq] at h
    cases hsfx : q.suffix with
    | nil => simp [hsfx] at h
    | cons v rest =>
      simp [hsfx] at h
      subst h
      exact ⟨rfl, rfl, rfl⟩
  · simp only [manage, handleQuery, hq] at h
    simp at h
    split at h
    · simp only [Outcome.running.injEq] at h
      subst h
      exact ⟨rfl, rfl, rfl⟩
    · have := sendAll_running _ _ _ _ h
      exact this
  · simp [manage, handleQuery, hq] at h
    subst h
    exact ⟨rfl, rfl, rfl⟩
  · simp only [manage, handleQuery, hq] at h
    simp at h
    split at h
    · simp only [Outcome.running.injEq] at h
      subst h
      exact ⟨rfl, rfl, rfl⟩
    · cases h

/-! ## Facts about the registry -/

theorem mapDelete_of_not_mem (m : List (Nat × client)) (a : Nat) (h : a ∉ keys m) :
    mapDelete m a = m := by
  simp only [mapDelete, List.filter_eq_self]
  intro e he
  have : e.1 ≠ a := fun e1 => h (by simpa [keys] using ⟨e.2, by rw [← e1]; exact he⟩)
  simpa using this

theorem keys_mapDelete (m : List (Nat × client)) (a : Nat) :
    keys (mapDelete m a) = (keys m).filter (fun b => decide (b ≠ a)) := by
  induction m with
  | nil => rfl
  | cons e m ih =>
    simp only [keys, mapDelete, ne_eq, decide_not] at ih ⊢
    by_cases h : e.1 = a <;> simp [List.filter_cons, h, ih]

theorem mapDelete_length (m : List (Nat × client)) (a : Nat) (hnd : (keys m).Nodup)
    (ha : a ∈ keys m) : (mapDelete m a).length + 1 = m.length := by
  induction m with
  | nil => simp [keys] at ha
  | cons e m ih =>
    simp only [keys, List.map_cons, List.nodup_cons] at hnd
    by_cases h : e.1 = a
    · have hnot : a ∉ keys m := by rw [← h]; exact hnd.1
      have := mapDelete_of_not_mem m a hnot
      simp only [mapDelete, ne_eq, decide_not] at this
      simp only [mapDelete, ne_eq, decide_not, List.filter_cons, h, decide_True, Bool.not_true,
        Bool.false_eq_true, if_false, this, List.length_cons]
    · have ha' : a ∈ keys m := by
        simp only [keys, List.map_cons, List.mem_cons] at ha
        rcases ha with ha | ha
        · exact absurd ha.symm h
        · exact ha
      have := ih hnd.2 ha'
      simp only [mapDelete, ne_eq, decide_not] at this
      simp only [mapDelete, ne_eq, decide_not, List.filter_cons, h, decide_False, Bool.not_false,
        if_true, List.length_cons, this]

theorem manage_add {σ : Type} (store : KVStore σ) (s : keyValueServer σ) (q : query) (a : Nat)
    (hq : q.qType = "AddConn".toList) (ha : asTCPConn q.client.conn = some a) :
    manage store s (.query q) =
      .running { s with connMap := mapSet s.connMap a q.client,
                        spawned := s.spawned ++ [.reader q.client, .writer q.client] } := by
  simp [manage, handleQuery, hq, ha]

theorem manage_rem_running {σ : Type} (store : KVStore σ) (s s1 : keyValueServer σ) (q : query)
    (a : Nat) (hq : q.qType = "RemConn".toList) (ha : asTCPConn q.client.conn = some a)
    (h : manage store s (.query q) = .running s1) :
    s1.connMap = mapDelete s.connMap a ∧ s1.numDropped = s.numDropped + 1 := by
  simp only [manage, handleQuery, hq, ha] at h
  simp at h
  split at h
  · cases h
  · simp only [Outcome.running.injEq] at h
    subst h
    exact ⟨rfl, rfl⟩

theorem closeReader_mem_stopChans (m : List (Nat × client)) (e : Nat × client) (he : e ∈ m) :
    e.2.closeReader ∈ stopChans m := by
  induction m with
  | nil => cases he
  | cons x m ih =>
    rcases List.mem_cons.mp he with h | h
    · subst h; simp [stopChans]
    · simp [stopChans, ih h]

theorem closeWriter_mem_stopChans (m : List (Nat × client)) (e : Nat × client) (he : e ∈ m) :
    e.2.closeWriter ∈ stopChans m := by
  induction m with
  | nil => cases he
  | cons x m ih =>
    rcases List.mem_cons.mp he with h | h
    · subst h; simp [stopChans]
    · simp [stopChans, ih h]

theorem closeAll_returns {σ : Type} (l : List (Nat × client)) (s : keyValueServer σ)
    (hk : (keys l).Nodup) (hconn : ∀ e ∈ l, e.2.conn = some ⟨e.1, true⟩)
    (hnd : (stopChans l).Nodup)
    (hempty : ∀ o ∈ stopChans l, o ≠ none ∧ chanLen s.ints o = 0) :
    closeAll s l = .returned { s with
      connMap := s.connMap.filter (fun e => decide (e.1 ∉ keys l))
      closed := fun a => if a ∈ keys l then s.closed a + 1 else s.closed a
      ints := fun a => if some a ∈ stopChans l then [1] else s.ints a } := by
  induction l generalizing s with
  | nil => simp [closeAll, keys, stopChans]
  | cons e rest ih =>
    obtain ⟨k, v⟩ := e
    have hc : v.conn = some ⟨k, true⟩ := hconn (k, v) (by simp)
    simp only [stopChans, List.nodup_cons, List.mem_cons, not_or] at hnd
    obtain ⟨⟨hrw, hr⟩, hw, hnd'⟩ := hnd
    simp only [keys, List.map_cons, List.nodup_cons] at hk
    obtain ⟨hk1, hk2⟩ := hk
    obtain ⟨hrsome, hrlen⟩ := hempty v.closeReader (by simp [stopChans])
    obtain ⟨hwsome, hwlen⟩ := hempty v.closeWriter (by simp [stopChans])
    obtain ⟨r, hr'⟩ := Option.ne_none_iff_exists'.mp hrsome
    obtain ⟨w, hw'⟩ := Option.ne_none_iff_exists'.mp hwsome
    rw [hr'] at hrw hr hrlen
    rw [hw'] at hrw hw hwlen
    have hrw' : r ≠ w := fun e => hrw (by rw [e])
    simp only [chanLen, List.length_eq_zero] at hrlen hwlen
    simp only [closeAll, hc, hr', hw', send, closeConn, hrlen, closeChanCap, List.length_nil,
      Nat.lt_one_iff, if_true, List.nil_append, Function.update_noteq (Ne.symm hrw'), hwlen]
    rw [ih]
    · congr 1
      simp only [keyValueServer.mk.injEq, true_and, and_true]
      refine ⟨?_, ?_, ?_⟩
      · simp only [mapDelete, List.filter_filter, keys, List.map_cons, List.mem_cons, not_or]
        congr 1
        funext e
        simp [Bool.and_comm]
      · funext a
        by_cases har : a = r
        · subst har
          simp [stopChans, hr', Function.update_noteq hrw']
        · by_cases haw : a = w
          · subst haw
            simp [stopChans, hw']
          · simp [stopChans, hr', hw', Function.update_noteq har, Function.update_noteq haw,
              har, haw]
      · funext a
        by_cases hak : a = k
        · subst hak
          simp [keys, hk1]
        · simp only [keys, List.map_cons, Function.update_noteq hak]
          by_cases hm : a ∈ List.map Prod.fst rest
          · rw [if_pos hm, if_pos (List.mem_cons_of_mem _ hm)]
          · rw [if_neg hm, if_neg (fun h => (List.mem_cons.mp h).elim hak hm)]
    · exact hk2
    · exact fun e he => hconn e (List.mem_cons_of_mem _ he)
    · exact hnd'
    · intro o ho
      obtain ⟨hos, hol⟩ := hempty o (by simp [stopChans, ho])
      refine ⟨hos, ?_⟩
      obtain ⟨a, rfl⟩ := Option.ne_none_iff_exists'.mp hos
      have har : a ≠ r := fun e => hr (by rw [← e]; exact ho)
      have haw : a ≠ w := fun e => hw (by rw [← e]; exact ho)
      simpa [chanLen, Function.update_noteq har, Function.update_noteq haw] using hol

theorem manage_rem_absent {σ : Type} (store : KVStore σ) (s : keyValueServer σ)
    (c : client) (a w : Nat) (hconn : c.conn = some ⟨a, true⟩) (habs : a ∉ keys s.connMap)
    (hw : c.closeWriter = some w) (hroom : s.ints w = []) :
    manage store s (remQuery c) =
      .running { s with
        closed := Function.update s.closed a (s.closed a + 1)
        ints := Function.update s.ints w [1]
        numDropped := s.numDropped + 1 } := by
  simp [manage, remQuery, handleQuery, hconn, asTCPConn, mapDelete_of_not_mem _ _ habs,
    closeConn, send, hw, hroom, closeChanCap]

/-! ## The registry stays well-formed in normal operation -/

theorem wellFormed_New {σ : Type} (db : σ) : WellFormed (New db) := by
  simp [WellFormed, New, keys, stopChans]

theorem stopChans_mapDelete_sublist (m : List (Nat × client)) (a : Nat) :
    (stopChans (mapDelete m a)).Sublist (stopChans m) := by
  induction m with
  | nil => simp [mapDelete, stopChans]
  | cons e m ih =>
    simp only [mapDelete, ne_eq, decide_not] at ih ⊢
    by_cases h : e.1 = a
    · simp only [List.filter_cons, h, decide_True, Bool.not_true, Bool.false_eq_true, if_false,
        stopChans]
      exact (ih.cons _).cons _
    · simp only [List.filter_cons, h, decide_False, Bool.not_false, if_true, stopChans]
      exact (ih.cons₂ _).cons₂ _

theorem mem_of_mem_mapDelete (m : List (Nat × client)) (a : Nat) (e : Nat × client)
    (h : e ∈ mapDelete m a) : e ∈ m :=
  List.mem_of_mem_filter h

theorem closeWriter_not_mem_mapDelete (m : List (Nat × client)) (a : Nat) (c : client)
    (hk : (keys m).Nodup) (hnd : (stopChans m).Nodup) (hm : (a, c) ∈ m) :
    c.closeWriter ∉ stopChans (mapDelete m a) := by
  induction m with
  | nil => cases hm
  | cons e m ih =>
    simp only [keys, List.map_cons, List.nodup_cons] at hk
    simp only [stopChans, List.nodup_cons, List.mem_cons, not_or] at hnd
    obtain ⟨⟨hrw, hr⟩, hw, hnd'⟩ := hnd
    rcases List.mem_cons.mp hm with h | h
    · subst h
      have hdel : mapDelete ((a, c) :: m) a = m := by
        have h1 : mapDelete m a = m := mapDelete_of_not_mem m a hk.1
        simp only [mapDelete, ne_eq, decide_not] at h1 ⊢
        simp [List.filter_cons, h1]
      rw [hdel]
      exact hw
    · have hne : e.1 ≠ a := fun h1 => hk.1 (by rw [h1]; exact List.mem_map_of_mem Prod.fst h)
      have hmem : c.closeWriter ∈ stopChans m := closeWriter_mem_stopChans m (a, c) h
      have hdel : mapDelete (e :: m) a = e :: mapDelete m a := by
        simp [mapDelete, List.filter_cons, hne]
      rw [hdel]
      simp only [stopChans, List.mem_cons, not_or]
      refine ⟨fun h1 => hr (h1 ▸ hmem), fun h1 => hw (h1 ▸ hmem), ih hk.2 hnd' h⟩

theorem wellFormed_manage {σ : Type} (store : KVStore σ) (s s1 : keyValueServer σ) (e : Event)
    (hwf : WellFormed s) (hev : NormalEvent s e) (h : manage store s e = .running s1) :
    WellFormed s1 := by
  obtain ⟨hk, hconn, hnd, hempty⟩ := hwf
  cases e with
  | close => exact absurd hev (by simp [NormalEvent])
  | query q =>
    by_cases hA : q.qType = "AddConn".toList
    · simp only [NormalEvent, hA, if_true] at hev
      obtain ⟨a, w, r, p, hc, ha, hwr, hw, hr, hwe, hre⟩ := hev
      have hdel := mapDelete_of_not_mem s.connMap a ha
      rw [manage_add store s q a hA (by simp [hc, newClient, asTCPConn])] at h
      simp only [Outcome.running.injEq] at h
      subst h
      refine ⟨?_, ?_, ?_, ?_⟩
      · simp only [mapSet, hdel, keys, List.map_cons, List.nodup_cons]
        exact ⟨ha, hk⟩
      · intro e he
        simp only [mapSet, hdel, List.mem_cons] at he
        rcases he with he | he
        · subst he; simp [hc, newClient]
        · exact hconn e he
      · simp only [mapSet, hdel, stopChans, hc, newClient, List.nodup_cons, List.mem_cons,
          not_or]
        exact ⟨⟨fun h1 => hwr (Option.some.inj h1).symm, hr⟩, hw, hnd⟩
      · intro o ho
        simp only [mapSet, hdel, stopChans, hc, newClient, List.mem_cons] at ho
        rcases ho with ho | ho | ho
        · subst ho; simp [chanLen, hre]
        · subst ho; simp [chanLen, hwe]
        · exact hempty o ho
    · by_cases hR : q.qType = "RemConn".toList
      · simp only [NormalEvent, hA, if_false] at hev
        simp only [hR, if_true] at hev
        obtain ⟨a, hm⟩ := hev
        have hc := hconn _ hm
        have hwm := closeWriter_mem_stopChans s.connMap _ hm
        obtain ⟨hws, hwl⟩ := hempty _ hwm
        obtain ⟨w, hw⟩ := Option.ne_none_iff_exists'.mp hws
        have hnot := closeWriter_not_mem_mapDelete s.connMap a q.client hk hnd hm
        simp only at hc hw hnot hwl
        rw [hw] at hwl hnot
        simp only [chanLen, List.length_eq_zero] at hwl
        simp only [manage, handleQuery, hR, hc, asTCPConn, hw, send, closeConn, hwl,
          closeChanCap] at h
        simp [hwl] at h
        subst h
        refine ⟨?_, ?_, ?_, ?_⟩
        · show (keys (mapDelete s.connMap a)).Nodup
          rw [keys_mapDelete]
          exact hk.filter _
        · intro e he
          exact hconn e (mem_of_mem_mapDelete _ _ _ he)
        · exact (stopChans_mapDelete_sublist s.connMap a).nodup hnd
        · intro o ho
          have ho' := (stopChans_mapDelete_sublist s.connMap a).subset ho
          obtain ⟨hos, hol⟩ := hempty o ho'
          refine ⟨hos, ?_⟩
          obtain ⟨b, rfl⟩ := Option.ne_none_iff_exists'.mp hos
          have hbw : b ≠ w := fun h1 => hnot (h1 ▸ ho)
          simpa [chanLen, Function.update_noteq hbw] using hol
      · simp only [NormalEvent, hA, hR, if_false] at hev
        obtain ⟨hc1, _, hi1⟩ := manage_request_running store s s1 q hev h
        refine ⟨by rw [hc1]; exact hk, by rw [hc1]; exact hconn, by rw [hc1]; exact hnd, ?_⟩
        rw [hc1, hi1]
        exact hempty

/-! ## Facts about the loop -/

theorem run_returned {σ : Type} (store : KVStore σ) (s : keyValueServer σ) (evs : List Event) :
    run store (.returned s) evs = .returned s := by
  cases evs <;> rfl

theorem run_of_not_running {σ : Type} (store : KVStore σ) (o : Outcome σ) (es : List Event)
    (h : ∀ s, o ≠ .running s) : run store o es = o := by
  cases o with
  | running s => exact absurd rfl (h s)
  | returned s => cases es <;> rfl
  | blocked s => cases es <;> rfl
  | panicked => cases es <;> rfl

theorem run_cons_running {σ : Type} (store : KVStore σ) (s s' : keyValueServer σ) (e : Event)
    (es : List Event) (h : run store (.running s) (e :: es) = .running s') :
    ∃ s1, manage store s e = .running s1 ∧ run store (.running s1) es = .running s' := by
  simp only [run] at h
  cases hm : manage store s e with
  | running s1 => exact ⟨s1, rfl, by rw [hm] at h; exact h⟩
  | returned s1 =>
    rw [hm, run_of_not_running store _ es (fun _ => by simp)] at h
    cases h
  | blocked s1 =>
    rw [hm, run_of_not_running store _ es (fun _ => by simp)] at h
    cases h
  | panicked =>
    rw [hm, run_of_not_running store _ es (fun _ => by simp)] at h
    cases h

theorem run_append {σ : Type} (store : KVStore σ) (o : Outcome σ) (es more : List Event) :
    run store o (es ++ more) = run store (run store o es) more := by
  induction es generalizing o with
  | nil =>
    cases o <;> cases more <;> rfl
  | cons e es ih =>
    cases o with
    | running s => exact ih _
    | returned s => cases more <;> rfl
    | blocked s => cases more <;> rfl
    | panicked => cases more <;> rfl

theorem CountActive_eq {σ : Type} (store : KVStore σ) (s : keyValueServer σ) :
    CountActive store s =
      some (s.connMap.length, { s with getActive := s.getActive ++ [s.connMap.length] }) := by
  simp [CountActive, manage, handleQuery, sendUnbuffered]

theorem CountDropped_eq {σ : Type} (store : KVStore σ) (s : keyValueServer σ) :
    CountDropped store s =
      some (s.numDropped, { s with getDropped := s.getDropped ++ [s.numDropped] }) := by
  simp [CountDropped, manage, handleQuery, sendUnbuffered]

theorem counts_invariant {σ : Type} (store : KVStore σ) (es : List Event) :
    ∀ (live seen : List Nat) (s s' : keyValueServer σ),
      keys s.connMap = live → live.Nodup → (∀ a ∈ live, a ∈ seen) →
      disciplined live seen es = true →
      run store (.running s) es = .running s' →
      s'.connMap.length + countRem es = s.connMap.length + countAdd es ∧
      s'.numDropped = s.numDropped + countRem es := by
  induction es with
  | nil =>
    intro live seen s s' _ _ _ _ hrun
    simp only [run, Outcome.running.injEq] at hrun
    subst hrun
    simp [countAdd, countRem]
  | cons e es ih =>
    intro live seen s s' hkeys hnd hsub hd hrun
    obtain ⟨s1, hm, hrest⟩ := run_cons_running store s s' e es hrun
    cases e with
    | close => simp [disciplined] at hd
    | query q =>
      by_cases hA : q.qType = "AddConn".toList
      · have hnR : q.qType ≠ "RemConn".toList := by rw [hA]; decide
        have hcA : countAdd (.query q :: es) = 1 + countAdd es := by
          rw [countAdd, if_pos hA]
        have hcR : countRem (.query q :: es) = countRem es := by
          rw [countRem, if_neg hnR, Nat.zero_add]
        simp only [disciplined, hA, if_true] at hd
        cases ha : asTCPConn q.client.conn with
        | none => simp [ha] at hd
        | some a =>
          simp only [ha] at hd
          by_cases hnew : a ∈ seen
          · simp [hnew] at hd
          simp only [hnew, if_false] at hd
          have hnl : a ∉ live := fun h => hnew (hsub a h)
          rw [manage_add store s q a hA ha] at hm
          simp only [Outcome.running.injEq] at hm
          subst hm
          have hdel := mapDelete_of_not_mem s.connMap a (by rw [hkeys]; exact hnl)
          have hk1 : keys (mapSet s.connMap a q.client) = a :: live := by
            simp only [mapSet, keys, List.map_cons, hdel]
            exact congrArg _ hkeys
          have hlen : (mapSet s.connMap a q.client).length = s.connMap.length + 1 := by
            simp only [mapSet, List.length_cons, hdel]
          have ih' : s'.connMap.length + countRem es
                = (mapSet s.connMap a q.client).length + countAdd es ∧
              s'.numDropped = s.numDropped + countRem es :=
            ih (a :: live) (a :: seen) _ s' hk1 (List.nodup_cons.mpr ⟨hnl, hnd⟩)
              (fun b hb => by
                rcases List.mem_cons.mp hb with h | h
                · exact h ▸ List.mem_cons_self _ _
                · exact List.mem_cons_of_mem _ (hsub b h)) hd hrest
          rw [hlen] at ih'
          rw [hcA, hcR]
          omega
      · by_cases hR : q.qType = "RemConn".toList
        · have hcA : countAdd (.query q :: es) = countAdd es := by
            rw [countAdd, if_neg hA, Nat.zero_add]
          have hcR : countRem (.query q :: es) = 1 + countRem es := by
            rw [countRem, if_pos hR]
          simp only [disciplined, hA, if_false] at hd
          simp only [hR, if_true] at hd
          cases ha : asTCPConn q.client.conn with
          | none => simp [ha] at hd
          | some a =>
            simp only [ha] at hd
            by_cases hmem : a ∈ live
            swap
            · simp [hmem] at hd
            simp only [hmem, if_true] at hd
            obtain ⟨hc1, hn1⟩ := manage_rem_running store s s1 q a hR ha hm
            have hk1 : keys s1.connMap = live.filter (fun b => decide (b ≠ a)) := by
              rw [hc1, keys_mapDelete, hkeys]
            have ih' := ih _ seen s1 s' hk1 (hnd.filter _)
              (fun b hb => hsub b (List.mem_of_mem_filter hb)) hd hrest
            have hlen := mapDelete_length s.connMap a (by rw [hkeys]; exact hnd)
              (by rw [hkeys]; exact hmem)
            rw [← hc1] at hlen
            rw [hcA, hcR]
            omega
        · have hcA : countAdd (.query q :: es) = countAdd es := by
            rw [countAdd, if_neg hA, Nat.zero_add]
          have hcR : countRem (.query q :: es) = countRem es := by
            rw [countRem, if_neg hR, Nat.zero_add]
          simp only [disciplined, hA, hR, if_false] at hd
          by_cases hreq : q.qType ∈ requestTypes
          swap
          · simp [hreq] at hd
          simp only [hreq, if_true] at hd
          obtain ⟨hc1, hn1, _⟩ := manage_request_running store s s1 q hreq hm
          have ih' := ih live seen s1 s' (by rw [hc1]; exact hkeys) hnd hsub hd hrest
          rw [hc1, hn1] at ih'
          rw [hcA, hcR]
          omega

theorem counts_of_handled {σ : Type} (store : KVStore σ) (db : σ)
    (es : List Event) (s : keyValueServer σ)
    (hd : disciplined [] [] es = true)
    (hrun : run store (.running (New db)) es = .running s) :
    countRem es ≤ countAdd es ∧
    (CountActive store s).map Prod.fst = some (countAdd es - countRem es) ∧
    (CountDropped store s).map Prod.fst = some (countRem es) := by
  obtain ⟨hlen, hdrop⟩ := counts_invariant store es [] [] (New db) s rfl List.nodup_nil
    (fun _ h => h) hd hrun
  simp only [New, List.length_nil, Nat.zero_add] at hlen hdrop
  have hact : s.connMap.length = countAdd es - countRem es := by omega
  refine ⟨by omega, ?_, ?_⟩
  · rw [CountActive_eq, ← hact]; rfl
  · rw [CountDropped_eq, ← hdrop]; rfl

set_option maxRecDepth 100000

/-! ## The request parser -/

/-- C1: on the line `Foo` followed by a newline, which has no `:` separator,
`parseRequest` does not return a query: `split` has one element and `split[1]`
is out of range. The panic is raised in the reader goroutine, whoever the
client is. -/
theorem parseRequest_no_key_panics (c : client) :
    parseRequest c "Foo\n".toList = none ∧ reader c (.line "Foo\n".toList) = .panicked :=
  ⟨rfl, rfl⟩

/-- C2: for a type `T`, a key `K` and arguments `A` whose strings contain neither
`:` nor a newline, `parseRequest` on the line `T:K:A1:...:An` followed by a
newline, read from client `c`, returns the query with client `c`, type `T`,
key `K` and the arguments `A` in their order (the empty list when there are
none). -/
theorem parseRequest_wireLine (c : client) (T K : Str) (A : List Str)
    (h : ∀ f ∈ T :: K :: A, ':' ∉ f ∧ '\n' ∉ f) :
    parseRequest c (wireLine (T :: K :: A)) =
      some { client := c, qType := T, key := K, suffix := A } := by
  have hs : Split (joinFields (T :: K :: A)) ':' = T :: K :: A :=
    Split_joinFields T (K :: A) (fun f hf => (h f hf).1)
  simp only [parseRequest, wireLine_eq_joinFields, TrimSuffix_append, hs]

/-- C2 at a concrete input: the line `Update:a:1:2`. -/
theorem parseRequest_wireLine_witness :
    (∀ f ∈ "Update".toList :: "a".toList :: ["1".toList, "2".toList], ':' ∉ f ∧ '\n' ∉ f) ∧
    parseRequest (newClient ⟨0, true⟩ 0 1 0) "Update:a:1:2\n".toList =
      some { client := newClient ⟨0, true⟩ 0 1 0, qType := "Update".toList, key := "a".toList,
             suffix := ["1".toList, "2".toList] } :=
  ⟨by decide,
   parseRequest_wireLine (newClient ⟨0, true⟩ 0 1 0) "Update".toList "a".toList
     ["1".toList, "2".toList] (by decide)⟩

/-! ## Put, Get and the response queue -/

/-- C3 fails as stated: in `slowState` the queue of `conn0` holds 499 < 500 lines and
nobody receives from it; after `Put:a:3` the lookup of `a` is `1, 2, 3`. The
`Get` sends the line of `1`, which fills the queue, and the manager then waits
in the send of the next line: the line `a:3` is not in the queue. -/
theorem put_then_get_ce :
    chanLen slowState.strs conn0.respChan < 500 ∧
    "3".toList ∈ (listStore.Get (listStore.Put slowState.db "a".toList "3".toList) "a".toList).1 ∧
    ∃ s', run listStore (.running slowState)
        [putQuery conn0 "a".toList "3".toList, getQuery conn0 "a".toList] = .blocked s' ∧
      s'.strs 0 = slowState.strs 0 ++ ["a:1\n".toList] ∧
      "a:3\n".toList ∉ s'.strs 0 := by
  refine ⟨by decide, by decide, _, rfl, rfl, ?_⟩
  intro h
  have h2 : "a:3\n".toList ∈ slowState.strs 0 ++ ["a:1\n".toList] := h
  simp only [slowState, if_true, List.mem_append, List.mem_replicate, List.mem_singleton] at h2
  revert h2
  decide

/-- C3 (amended): for every store, key `k`, value `v` and connection `c`, if the
lookup of `k` after the insert of `(k, v)` contains `v` and the queue of `c`
has room for all the values of that lookup (entries plus values at most 500),
then handling `Put(k, v)` and `Get(k)` from `c` forwards exactly `k` and `v`
to the store, looks `k` up, and appends the lines of the lookup to the queue
of `c`, the line `k:v` among them. -/
theorem put_then_get_appends {σ : Type} (store : KVStore σ) (s : keyValueServer σ)
    (c : client) (ch : Nat) (k v : Str) (hc : c.respChan = some ch)
    (hv : v ∈ (store.Get (store.Put s.db k v) k).1)
    (hfit : (s.strs ch).length + (store.Get (store.Put s.db k v) k).1.length ≤ 500) :
    ∃ s2, run store (.running s) [putQuery c k v, getQuery c k] = .running s2 ∧
      s2.strs ch = s.strs ch ++ (store.Get (store.Put s.db k v) k).1.map (respLine k) ∧
      respLine k v ∈ s2.strs ch ∧
      s2.calls = s.calls ++ [.Put k v, .Get k] := by
  have hrun : run store (.running s) [putQuery c k v, getQuery c k] = .running
      { s with
        db := (store.Get (store.Put s.db k v) k).2
        calls := s.calls ++ [.Put k v] ++ [.Get k]
        strs := Function.update s.strs ch
          (s.strs ch ++ (store.Get (store.Put s.db k v) k).1.map (respLine k)) } := by
    simp only [run, manage_put]
    rw [manage_get_fits store _ c ch k hc hfit]
    rfl
  refine ⟨_, hrun, ?_, ?_, ?_⟩
  · simp
  · simp only [Function.update_same, List.mem_append, List.mem_map]
    exact Or.inr ⟨v, hv, rfl⟩
  · simp

/-- C3 (amended), at a concrete input: `Put:a:3` and `Get:a` from `conn0` on
`readyState`, whose queue is empty. -/
theorem put_then_get_appends_witness :
    ∃ s2, run listStore (.running readyState)
        [putQuery conn0 "a".toList "3".toList, getQuery conn0 "a".toList] = .running s2 ∧
      s2.strs 0 = readyState.strs 0 ++
        (listStore.Get (listStore.Put readyState.db "a".toList "3".toList) "a".toList).1.map
          (respLine "a".toList) ∧
      respLine "a".toList "3".toList ∈ s2.strs 0 ∧
      s2.calls = readyState.calls ++ [.Put "a".toList "3".toList, .Get "a".toList] :=
  put_then_get_appends listStore readyState conn0 0 "a".toList "3".toList rfl
    (by decide) (by decide)

/-- C4 fails as stated: in `slowState` the queue of `conn0` holds 499 lines, fewer than
500, and nobody receives from it; the lookup of `a` has the two values `1` and
`2`. The manager appends the line of `1` only and then waits in the send of the
line of `2`: the queue is not the old queue followed by both lines. -/
theorem get_blocks_ce :
    chanLen slowState.strs conn0.respChan = 499 ∧
    ∃ s', manage listStore slowState (getQuery conn0 "a".toList) = .blocked s' ∧
      s'.strs 0 = slowState.strs 0 ++ ["a:1\n".toList] ∧
      s'.strs 0 ≠ slowState.strs 0 ++ ["a:1\n".toList, "a:2\n".toList] := by
  refine ⟨rfl, _, rfl, rfl, ?_⟩
  intro h
  have h2 : slowState.strs 0 ++ ["a:1\n".toList] =
      slowState.strs 0 ++ ["a:1\n".toList, "a:2\n".toList] := h
  exact absurd (List.append_cancel_left h2) (by decide)

/-- C4 (amended): handling `Get(k)` from connection `c`: if the queue of `c` holds
500 entries (or more), the queue and every other channel are left unchanged,
the store having been asked; otherwise, if the queue has room for all the
values of the lookup (entries plus values at most 500), exactly the lines
`k:v`, one per value and in the order of the lookup, are appended to the queue
of `c`, and nothing else changes but the store's record of the call. -/
theorem get_appends_when_room {σ : Type} (store : KVStore σ) (s : keyValueServer σ)
    (c : client) (ch : Nat) (k : Str) (hc : c.respChan = some ch) :
    (500 ≤ (s.strs ch).length →
      manage store s (getQuery c k) =
        .running { s with db := (store.Get s.db k).2, calls := s.calls ++ [.Get k] }) ∧
    ((s.strs ch).length < 500 → (s.strs ch).length + (store.Get s.db k).1.length ≤ 500 →
      manage store s (getQuery c k) =
        .running { s with
          db := (store.Get s.db k).2, calls := s.calls ++ [.Get k]
          strs := Function.update s.strs ch
            (s.strs ch ++ (store.Get s.db k).1.map (respLine k)) }) :=
  ⟨manage_get_full store s c ch k hc, fun _ hfit => manage_get_fits store s c ch k hc hfit⟩

/-- C4 (amended), at concrete inputs: `Get:a` from `conn0` on a full queue
(`fullState`) and on an empty one (`readyState`). -/
theorem get_appends_when_room_witness :
    manage listStore fullState (getQuery conn0 "a".toList) =
      .running { fullState with
        db := (listStore.Get fullState.db "a".toList).2
        calls := fullState.calls ++ [.Get "a".toList] } ∧
    manage listStore readyState (getQuery conn0 "a".toList) =
      .running { readyState with
        db := (listStore.Get readyState.db "a".toList).2
        calls := readyState.calls ++ [.Get "a".toList]
        strs := Function.update readyState.strs 0
          (readyState.strs 0 ++
            (listStore.Get readyState.db "a".toList).1.map (respLine "a".toList)) } :=
  ⟨(get_appends_when_room listStore fullState conn0 0 "a".toList rfl).1 (by decide),
   (get_appends_when_room listStore readyState conn0 0 "a".toList rfl).2
     (by decide) (by decide)⟩

/-- C5, evaluation of the code where it departs from the claim: if the queue of `c`
holds fewer than 500 entries and the lookup has more values than the queue has
room for, the manager fills the queue up to 500 entries with the first lines
and then waits in the send of the next one, on a full queue; it does not drop
the excess and does not go on to the next request. -/
theorem get_overflow_blocks {σ : Type} (store : KVStore σ) (s : keyValueServer σ)
    (c : client) (ch : Nat) (k : Str) (hc : c.respChan = some ch)
    (hlt : (s.strs ch).length < 500)
    (hover : 500 < (s.strs ch).length + (store.Get s.db k).1.length) :
    ∃ s', manage store s (getQuery c k) = .blocked s' ∧
      (s'.strs ch).length = 500 ∧
      s'.strs ch = s.strs ch
        ++ ((store.Get s.db k).1.map (respLine k)).take (500 - (s.strs ch).length) := by
  have hnot : ¬ (bufferSize ≤ (s.strs ch).length) := by simp [bufferSize]; omega
  have hrun : manage store s (getQuery c k) = .blocked
      { s with
        db := (store.Get s.db k).2, calls := s.calls ++ [.Get k]
        strs := Function.update s.strs ch (s.strs ch
          ++ ((store.Get s.db k).1.map (respLine k)).take (500 - (s.strs ch).length)) } := by
    simp only [manage, getQuery, handleQuery, hc, chanLen, ge_iff_le, hnot, if_false]
    rw [sendAll_overflow]
    · rfl
    · simp [respChanCap]; omega
    · simp [respChanCap]; omega
  refine ⟨_, hrun, ?_, ?_⟩
  · simp; omega
  · simp

/-- C5 at the failing input: `Get:a` from `conn0` in `slowState`, 499
lines waiting and two values to send. -/
theorem get_overflow_blocks_witness :
    ∃ s', manage listStore slowState (getQuery conn0 "a".toList) = .blocked s' ∧
      (s'.strs 0).length = 500 ∧
      s'.strs 0 = slowState.strs 0
        ++ (((listStore.Get slowState.db "a".toList).1.map (respLine "a".toList)).take
              (500 - (slowState.strs 0).length)) :=
  get_overflow_blocks listStore slowState conn0 0 "a".toList rfl (by decide) (by decide)

/-! ## The registry and the dropped counter -/

/-- C6, evaluation of the code where it departs from the claim: from the state
built by `New`, one `AddConn` and no `RemConn` are handled, interleaved with
`Put` and `Get` requests (`floodTrace`), so `N - M = 1`. The first `Get` puts
251 lines into the queue of the client, the second passes the guard, fills the
queue up to 500 lines and leaves the manager waiting in the next send: whatever
query follows, the `Active` query included, is not handled and nothing is ever
sent on `getActive`. A `Put` without a value after the `AddConn` ends the
manager by a panic in the same way. -/
theorem counts_never_answered :
    disciplined [] [] floodTrace = true ∧ countAdd floodTrace = 1 ∧ countRem floodTrace = 0 ∧
    (∃ s', run listStore (.running (New [])) floodTrace = .blocked s' ∧
      keys s'.connMap = [0] ∧ (s'.strs 0).length = 500 ∧ s'.getActive = [] ∧
      ∀ more, run listStore (.running (New [])) (floodTrace ++ more) = .blocked s') ∧
    ∀ more, run listStore (.running (New []))
      ([addQuery conn0, .query ⟨conn0, "Put".toList, "a".toList, []⟩] ++ more) = .panicked := by
  have h1 : run listStore (.running (New [])) floodTrace = .blocked floodEnd := rfl
  refine ⟨by decide, by decide, by decide, ⟨floodEnd, h1, rfl, by decide, rfl, ?_⟩, ?_⟩
  · intro more
    rw [run_append, h1]
    exact run_of_not_running _ _ _ (fun _ => by simp)
  · intro more
    have hp : run listStore (.running (New []))
        [addQuery conn0, .query ⟨conn0, "Put".toList, "a".toList, []⟩] = .panicked := rfl
    rw [run_append, hp]
    exact run_of_not_running _ _ _ (fun _ => by simp)

/-- C7, evaluation of the code where it departs from the claim: the reader of
`conn0` forwards the line `RemConn:` as a `RemConn` query for `conn0`. In
`afterDrop`, the state after `AddConn` and a first `RemConn` for `conn0` with
the stop signal taken by its writer, `conn0` is absent from the registry and
the dropped counter is 1. Handling a second `RemConn` for `conn0` raises the
dropped counter to 2, which `CountDropped` then returns, and puts a second stop
signal into the `closeWriter` of `conn0`; a third one leaves the manager
waiting in the send of the stop signal. -/
theorem remConn_twice_counts_twice :
    reader conn0 (.line "RemConn:\n".toList) = .forwarded ⟨conn0, "RemConn".toList, [], []⟩ ∧
    keys afterDrop.connMap = [] ∧ afterDrop.numDropped = 1 ∧ afterDrop.ints 0 = [] ∧
    ∃ s2, manage listStore afterDrop (remQuery conn0) = .running s2 ∧
      s2.connMap = [] ∧ s2.numDropped = 2 ∧ s2.ints 0 = [1] ∧
      (CountDropped listStore s2).map Prod.fst = some 2 ∧
      ∃ s3, manage listStore s2 (remQuery conn0) = .blocked s3 :=
  ⟨rfl, rfl, rfl, rfl, _, rfl, rfl, rfl, rfl, rfl, _, rfl⟩

/-- C8 fails as stated: the reader of `conn0` forwards the line `AddConn:` as an
`AddConn` query for `conn0`. After `AddConn`, `RemConn` and `AddConn` for
`conn0`, with the writer-stop signal of the `RemConn` not yet taken, `conn0`
is in the registry and a signal waits in its `closeWriter`, which has capacity
1. Handling the close signal closes the socket, puts the reader-stop signal
and then waits in the send of the writer-stop signal: `manage` does not return
and `conn0` stays in the registry. -/
theorem shutdown_blocks_ce :
    reader conn0 (.line "AddConn:\n".toList) = .forwarded ⟨conn0, "AddConn".toList, [], []⟩ ∧
    ∃ s, run listStore (.running (New []))
        [addQuery conn0, remQuery conn0, addQuery conn0] = .running s ∧
      keys s.connMap = [0] ∧ s.ints 0 = [1] ∧
      ∃ s', manage listStore s .close = .blocked s' ∧
        keys s'.connMap = [0] ∧ s'.ints 1 = [1] ∧ s'.ints 0 = [1] :=
  ⟨rfl, _, rfl, rfl, rfl, _, rfl, rfl, rfl, rfl⟩

/-- C8 (amended): for every manager state with a well-formed registry (one entry
per connection, each under its own TCP connection, each with stop channels of
its own in which no stop signal waits), handling the close
signal ends `manage` with the registry empty and the dropped counter
unchanged; `Close` has been called once on the connection of every entry that
was in the registry, and one stop signal has been put into its `closeReader`
and one into its `closeWriter`, which were empty. No event is processed
afterwards. -/
theorem shutdown_closes_all {σ : Type} (store : KVStore σ) (s : keyValueServer σ)
    (hwf : WellFormed s) :
    ∃ s', manage store s .close = .returned s' ∧
      s'.connMap = [] ∧ s'.numDropped = s.numDropped ∧
      (∀ e ∈ s.connMap, e.2.conn = some ⟨e.1, true⟩ ∧ s'.closed e.1 = s.closed e.1 + 1 ∧
        ∃ r w, e.2.closeReader = some r ∧ e.2.closeWriter = some w ∧
          s.ints r = [] ∧ s'.ints r = [1] ∧ s.ints w = [] ∧ s'.ints w = [1]) ∧
      (∀ evs, run store (.returned s') evs = .returned s') := by
  obtain ⟨hk, hconn, hnd, hempty⟩ := hwf
  refine ⟨_, closeAll_returns s.connMap s hk hconn hnd hempty, ?_, rfl, ?_, run_returned store _⟩
  · simp only [List.filter_eq_nil_iff, keys]
    intro e he
    simpa using ⟨e.2, he⟩
  · intro e he
    have hkey : e.1 ∈ keys s.connMap := List.mem_map_of_mem _ he
    have hrm := closeReader_mem_stopChans s.connMap e he
    have hwm := closeWriter_mem_stopChans s.connMap e he
    obtain ⟨hrs, hrl⟩ := hempty _ hrm
    obtain ⟨hws, hwl⟩ := hempty _ hwm
    obtain ⟨r, hr⟩ := Option.ne_none_iff_exists'.mp hrs
    obtain ⟨w, hw⟩ := Option.ne_none_iff_exists'.mp hws
    rw [hr] at hrm hrl
    rw [hw] at hwm hwl
    simp only [chanLen, List.length_eq_zero] at hrl hwl
    refine ⟨hconn e he, by simp only [if_pos hkey], r, w, hr, hw, hrl, ?_, hwl, ?_⟩
    · simp only [if_pos hrm]
    · simp only [if_pos hwm]

/-- C8 (amended), at a concrete input: the close signal on `twoConns`, the state
the manager reaches from `New` by `AddConn` for `conn0` and `conn1`. -/
theorem shutdown_closes_all_witness :
    run listStore (.running (New [])) [addQuery conn0, addQuery conn1] = .running twoConns ∧
    WellFormed twoConns ∧
    ∃ s', manage listStore twoConns .close = .returned s' ∧
      s'.connMap = [] ∧ s'.numDropped = twoConns.numDropped ∧
      (∀ e ∈ twoConns.connMap, e.2.conn = some ⟨e.1, true⟩ ∧
        s'.closed e.1 = twoConns.closed e.1 + 1 ∧
        ∃ r w, e.2.closeReader = some r ∧ e.2.closeWriter = some w ∧
          twoConns.ints r = [] ∧ s'.ints r = [1] ∧ twoConns.ints w = [] ∧ s'.ints w = [1]) ∧
      (∀ evs, run listStore (.returned s') evs = .returned s') :=
  have hwf : WellFormed twoConns := by unfold WellFormed; decide
  ⟨rfl, hwf, shutdown_closes_all listStore twoConns hwf⟩

/-! ## Malformed requests -/

/-- C9, evaluation of the code where it departs from the claim: the queries parsed
from `Put:a` and from `Update:a:1` make the manager panic in every state, on
`query.suffix[0]` and `query.suffix[1]`; the request is not discarded. -/
theorem short_request_panics {σ : Type} (store : KVStore σ) (s : keyValueServer σ) (c : client) :
    (parseRequest c "Put:a\n".toList).map (fun q => manage store s (.query q)) = some .panicked ∧
    (parseRequest c "Update:a:1\n".toList).map (fun q => manage store s (.query q))
      = some .panicked := by
  constructor <;> rfl

/-- C10: a query whose type is none of `Put`, `Get`, `Delete`, `Update`, `Active`,
`Dropped`, `AddConn`, `RemConn` matches no case of the `switch`: in every
state the manager goes on with the state unchanged: no store call, nothing
sent on any channel, the registry and the dropped counter as before. -/
theorem unknown_type_dropped {σ : Type} (store : KVStore σ) (s : keyValueServer σ) (q : query)
    (h : q.qType ∉ knownTypes) : manage store s (.query q) = .running s := by
  simp only [knownTypes, List.mem_cons, List.mem_singleton, not_or, List.not_mem_nil,
    not_false_eq_true, and_true] at h
  obtain ⟨h1, h2, h3, h4, h5, h6, h7, h8⟩ := h
  simp only [manage, handleQuery, h1, h2, h3, h4, h5, h6, h7, h8, if_false]

/-- C10 at a concrete input: the line `Foo:a` from `conn0`. -/
theorem unknown_type_dropped_witness :
    parseRequest conn0 "Foo:a\n".toList = some ⟨conn0, "Foo".toList, "a".toList, []⟩ ∧
    manage listStore twoConns (.query ⟨conn0, "Foo".toList, "a".toList, []⟩) =
      .running twoConns :=
  ⟨by decide, unknown_type_dropped listStore twoConns _ (by decide)⟩

end KVServer
